import Mathlib

/-!
Verification development for the novel-to-EPUB downloader
(`novel_to_epub.py`).  The script's pure logic is shallowly embedded:
the network and the browser are an explicit oracle (`World`), the
`while` loop of `fetch_novel` becomes a fuel-indexed step relation
producing a trace of observable events, and every string transformation
of the script (`re.sub` calls, `str.split`, `str.replace`,
`os.path.join`) is translated to an executable Lean function on
character lists.
-/

namespace NovelEpub

/-! ## Character-level string helpers -/

/-- Whitespace characters as matched by Python's `\s` and `str.strip()`. -/
def isPySpace (c : Char) : Bool :=
  c = ' ' || c = '\t' || c = '\n' || c = '\r' || c = '\x0b' || c = '\x0c'

/-- The characters forbidden in filenames, from the character class of
`re.sub(r'[\\/:*?"<>|]', '_', name)` in `sanitize_filename`. -/
def forbiddenChars : List Char := ['\\', '/', ':', '*', '?', '"', '<', '>', '|']

/-- The scan performed by `re.sub(r'[\\/:*?"<>|]', '_', name)`: each
character matching the class is replaced by an underscore, all other
characters are copied. -/
def subForbidden : List Char → List Char
  | [] => []
  | c :: cs => (if c ∈ forbiddenChars then '_' else c) :: subForbidden cs

/-- `sanitize_filename` from `novel_to_epub.py`. -/
def sanitize_filename (name : String) : String :=
  ⟨subForbidden name.data⟩

/-- Python `str.split(sep)` for a single-character separator. -/
def splitOnCharL (sep : Char) : List Char → List (List Char)
  | [] => [[]]
  | c :: cs =>
    match splitOnCharL sep cs with
    | [] => [[]]
    | g :: gs => if c = sep then [] :: g :: gs else (c :: g) :: gs

/-- `base_url.split('/')[-1]`: the fallback novel title used when the
first rendered page has no `article-title` element. -/
def fallbackTitle (baseUrl : String) : String :=
  ⟨(splitOnCharL '/' baseUrl.data).getLastD []⟩

/-- `os.path.join` for POSIX paths, as used on `(output_dir, fname)`. -/
def osPathJoin (d f : String) : String :=
  if f.data.head? = some '/' then f
  else if d.data = [] then f
  else if d.data.getLast? = some '/' then d ++ f
  else d ++ "/" ++ f

/-- Python `sep.join(strings)`. -/
def joinSep (sep : String) : List String → String
  | [] => ""
  | [x] => x
  | x :: y :: ys => x ++ sep ++ joinSep sep (y :: ys)

/-- Join character-list lines with a newline (inverse of splitting on `'\n'`). -/
def joinNLData : List (List Char) → List Char
  | [] => []
  | [l] => l
  | l :: l' :: ls => l ++ '\n' :: joinNLData (l' :: ls)

/-- Drop trailing spaces and tabs from one line, the per-line effect of
`re.sub(r'[ \t]+$', '', raw, flags=re.M)`. -/
def dropTrailingST (l : List Char) : List Char :=
  (l.reverse.dropWhile (fun c => c = ' ' || c = '\t')).reverse

/-- `re.sub(r'[ \t]+$', '', raw, flags=re.M)`: strip trailing spaces and
tabs from every line. -/
def stripTrailingData (cs : List Char) : List Char :=
  joinNLData ((splitOnCharL '\n' cs).map dropTrailingST)

/-- `re.sub(r'^\s+', '', raw, flags=re.M)`: at the start of the string
and after every newline, delete the maximal run of whitespace.  The
Boolean flag records whether the scan currently sits at a line start. -/
def subLeadingWS : Bool → List Char → List Char
  | _, [] => []
  | true, c :: cs =>
    if isPySpace c then subLeadingWS true cs
    else c :: subLeadingWS (c = '\n') cs
  | false, c :: cs => c :: subLeadingWS (c = '\n') cs

/-- `re.sub(r'\n{3,}', '\n\n', raw)`: collapse runs of three or more
newlines to exactly two.  The counter is the number of newlines already
emitted in the current run. -/
def collapseNLAux : Nat → List Char → List Char
  | _, [] => []
  | nl, c :: cs =>
    if c = '\n' then (if 2 ≤ nl then [] else ['\n']) ++ collapseNLAux (nl + 1) cs
    else c :: collapseNLAux 0 cs

/-- The whitespace normalisation applied to `content_div.get_text()` when
no non-empty `<p>` paragraph exists (lines 100-103 of the script). -/
def normalizeRaw (raw : String) : String :=
  ⟨collapseNLAux 0 (subLeadingWS true (stripTrailingData raw.data))⟩

/-- Python `str.replace(pat, repl)`: leftmost, non-overlapping
replacement of every occurrence.  The fuel argument is instantiated with
the input length, which bounds the recursion depth. -/
def replaceAllAux (pat repl : List Char) : Nat → List Char → List Char
  | _, [] => []
  | 0, s => s
  | fuel + 1, c :: cs =>
    if pat ≠ [] ∧ pat.isPrefixOf (c :: cs) then
      repl ++ replaceAllAux pat repl fuel ((c :: cs).drop pat.length)
    else c :: replaceAllAux pat repl fuel cs

/-- `s.replace(pat, repl)` on strings. -/
def pyReplace (s pat repl : String) : String :=
  ⟨replaceAllAux pat.data repl.data s.data.length s.data⟩

/-- Python `s.split(pat)` for a non-empty multi-character separator,
accumulator-based; fuel is instantiated with the input length. -/
def splitOnListAux (pat : List Char) : Nat → List Char → List Char → List (List Char)
  | _, acc, [] => [acc.reverse]
  | 0, acc, s => [acc.reverse ++ s]
  | fuel + 1, acc, c :: cs =>
    if pat ≠ [] ∧ pat.isPrefixOf (c :: cs) then
      acc.reverse :: splitOnListAux pat fuel [] ((c :: cs).drop pat.length)
    else splitOnListAux pat fuel (c :: acc) cs

/-- `s.split(pat)` on strings. -/
def pySplit (s pat : String) : List String :=
  (splitOnListAux pat.data s.data.length [] s.data).map fun l => ⟨l⟩

/-! ## Data model of one `fetch_novel` run

The network and the headless browser are an oracle indexed by page
number.  `requests.head` either raises or returns a status code; the
`driver.get` / `wait.until` pair either raises (uncaught in the script),
times out on the `article-content` wait (caught: the page is skipped),
or renders a page whose parsed soup is summarised by `PageData`. -/

/-- Result of `requests.head(url)` for one page: the request raises, or
returns an HTTP status code. -/
inductive HeadResult
  | raise
  | status (code : Nat)
  deriving DecidableEq, Repr

/-- The text content of the `article-content` element: the stripped
texts of its `<p>` children and its raw `get_text(separator='\n')`. -/
structure ContentDiv where
  pTexts : List String
  rawText : String
  deriving DecidableEq, Repr

/-- Parsed soup of a successfully rendered page: the stripped text of
the `article-title` element if present, and the `article-content`
element if present. -/
structure PageData where
  titleTag : Option String
  contentDiv : Option ContentDiv
  deriving DecidableEq, Repr

/-- Result of `driver.get(url)` followed by the explicit wait. -/
inductive GetResult
  | raise
  | timeout
  | ok (pg : PageData)
  deriving DecidableEq, Repr

/-- The external world of one run: per-page probe and render behaviour. -/
structure World where
  head : Nat → HeadResult
  render : Nat → GetResult

/-- Observable events of one run, in order. -/
inductive Event
  | probe (page : Nat)
  | stopLimit
  | stopHeadErr (page : Nat)
  | stop404 (page : Nat)
  | skipMissing (page : Nat)
  | skipNoContent (page : Nat)
  | append (page : Nat) (text : String)
  deriving DecidableEq, Repr

/-- Mutable state of the `while` loop: the page counter, `novel_title`,
`output_file`, and the artifact file (`none` while the file does not
exist, `some s` once created with contents `s`). -/
structure LoopState where
  page : Nat
  novelTitle : Option String
  outputFile : Option String
  artifact : Option String
  deriving DecidableEq, Repr

/-- How the loop ended: fuel exhausted (an artifact of the embedding),
a normal `break`, or an uncaught exception from `driver.get`. -/
inductive RunResult
  | outOfFuel (s : LoopState)
  | finished (s : LoopState)
  | raised (s : LoopState)
  deriving DecidableEq, Repr

/-- The loop state carried by a `RunResult`. -/
def RunResult.state : RunResult → LoopState
  | .outOfFuel s => s
  | .finished s => s
  | .raised s => s

/-- Whether the run ended by fuel exhaustion. -/
def RunResult.isOutOfFuel : RunResult → Bool
  | .outOfFuel _ => true
  | _ => false

/-- One loop iteration either stops the loop or continues with a new
state; both carry the events of the iteration. -/
inductive StepRes
  | stop (r : RunResult) (evts : List Event)
  | next (s : LoopState) (evts : List Event)
  deriving DecidableEq, Repr

/-- The events of a step. -/
def StepRes.evts : StepRes → List Event
  | .stop _ e => e
  | .next _ e => e

/-- `end_page = start_page + max_pages - 1 if max_pages else None`:
Python truthiness makes `max_pages = 0` behave like `None`. -/
def computeEndPage (startPage : Nat) (maxPages : Option Nat) : Option Nat :=
  match maxPages with
  | none => none
  | some m => if m = 0 then none else some (startPage + m - 1)

/-- `if end_page and page > end_page`: the ceiling test, including the
truthiness of `end_page` itself. -/
def ceilingHit (endPage : Option Nat) (page : Nat) : Bool :=
  match endPage with
  | none => false
  | some e => e ≠ 0 && page > e

/-- Whether a probe outcome terminates the loop: the request raised, or
the status is 404. -/
def probeStops : HeadResult → Bool
  | .raise => true
  | .status c => c == 404

/-- The stop event emitted when the probe terminates the loop. -/
def stopEvent (page : Nat) : HeadResult → Event
  | .raise => .stopHeadErr page
  | .status _ => .stop404 page

/-- `tag.get_text(strip=True) if tag else base_url.split('/')[-1]`. -/
def discoveredTitle (baseUrl : String) (pg : PageData) : String :=
  match pg.titleTag with
  | some t => t
  | none => fallbackTitle baseUrl

/-- `os.path.join(output_dir, sanitize_filename(novel_title) + '.txt')`. -/
def artifactPathFor (outputDir title : String) : String :=
  osPathJoin outputDir (sanitize_filename title ++ ".txt")

/-- Lines 84-90 of the script: if `novel_title is None`, set the title
from the page (falling back to the base URL) and fix the output path. -/
def setTitle (baseUrl outputDir : String) (s : LoopState) (pg : PageData) : LoopState :=
  match s.novelTitle with
  | some _ => s
  | none =>
    { s with novelTitle := some (discoveredTitle baseUrl pg),
             outputFile := some (artifactPathFor outputDir (discoveredTitle baseUrl pg)) }

/-- The chapter text computed from the content element: the non-empty
stripped `<p>` texts joined by blank lines, or the whitespace-normalised
raw text when no such paragraph exists. -/
def chapterTextOf (cd : ContentDiv) : String :=
  let paras := cd.pTexts.filter (fun p => p != "")
  if paras.isEmpty then normalizeRaw cd.rawText
  else joinSep "\n\n" paras

/-- `page += 1`. -/
def advance (s : LoopState) : LoopState :=
  { s with page := s.page + 1 }

/-- `open(output_file, 'a')` followed by writing the chapter text and a
blank line: creates the file if absent and appends. -/
def appendChapter (s : LoopState) (txt : String) : LoopState :=
  { s with artifact := some (s.artifact.getD "" ++ txt ++ "\n\n") }

/-- One iteration of the `while True` loop (lines 54-111 of the
script): ceiling check, HEAD probe, page load and wait, title
discovery, content extraction and append. -/
def fetchStep (w : World) (baseUrl outputDir : String) (endPage : Option Nat)
    (s : LoopState) : StepRes :=
  if ceilingHit endPage s.page then .stop (.finished s) [.stopLimit]
  else
    match w.head s.page with
    | .raise => .stop (.finished s) [.probe s.page, .stopHeadErr s.page]
    | .status code =>
      if code = 404 then .stop (.finished s) [.probe s.page, .stop404 s.page]
      else
        match w.render s.page with
        | .raise => .stop (.raised s) [.probe s.page]
        | .timeout => .next (advance s) [.probe s.page, .skipMissing s.page]
        | .ok pg =>
          match pg.contentDiv with
          | none =>
            .next (advance (setTitle baseUrl outputDir s pg))
              [.probe s.page, .skipNoContent s.page]
          | some cd =>
            .next (advance (appendChapter (setTitle baseUrl outputDir s pg) (chapterTextOf cd)))
              [.probe s.page, .append s.page (chapterTextOf cd)]

/-- The `while True` loop, indexed by fuel; returns how it ended and
the trace of events in order. -/
def fetchLoop (w : World) (baseUrl outputDir : String) (endPage : Option Nat) :
    Nat → LoopState → RunResult × List Event
  | 0, s => (.outOfFuel s, [])
  | fuel + 1, s =>
    match fetchStep w baseUrl outputDir endPage s with
    | .stop r evts => (r, evts)
    | .next s' evts =>
      let rest := fetchLoop w baseUrl outputDir endPage fuel s'
      (rest.1, evts ++ rest.2)

/-- The initial loop state: `page = start_page`, no title, no output
file, no artifact on disk. -/
def initState (startPage : Nat) : LoopState :=
  ⟨startPage, none, none, none⟩

/-- Final outcome of `fetch_novel` after the loop: nothing written, an
EPUB written at a path with a title and paragraph list, or an uncaught
exception. -/
inductive Outcome
  | fuelOut
  | exn
  | noDocument (s : LoopState)
  | wroteEpub (epubPath : String) (title : String) (paragraphs : List String)
  deriving DecidableEq, Repr

/-- `[p for p in full_text.split('\n\n') if p.strip()]`. -/
def epubParagraphs (fullText : String) : List String :=
  (pySplit fullText "\n\n").filter (fun p => p.data.any (fun c => !isPySpace c))

/-- Lines 116-138 of the script: if `output_file` was set, read the
artifact back (raising if it was never created), split it into
paragraphs, and write the EPUB next to it with `'.txt'` replaced by
`'.epub'`. -/
def finalizeRun : RunResult → Outcome
  | .outOfFuel _ => .fuelOut
  | .raised _ => .exn
  | .finished s =>
    match s.outputFile with
    | none => .noDocument s
    | some path =>
      match s.artifact with
      | none => .exn
      | some fullText =>
        .wroteEpub (pyReplace path ".txt" ".epub") (s.novelTitle.getD "")
          (epubParagraphs fullText)

/-- `fetch_novel(base_url, start_page, max_pages, output_dir)`: the
whole run, returning the outcome and the event trace.  The politeness
delay has no observable effect and is omitted. -/
def fetch_novel (w : World) (base_url : String) (start_page : Nat)
    (max_pages : Option Nat) (output_dir : String) (fuel : Nat) :
    Outcome × List Event :=
  let r := fetchLoop w base_url output_dir (computeEndPage start_page max_pages) fuel
    (initState start_page)
  (finalizeRun r.1, r.2)

/-- The pages of the append events of a trace, in order. -/
def appendPages (tr : List Event) : List Nat :=
  tr.filterMap fun e =>
    match e with
    | .append p _ => some p
    | _ => none

/-! ## The Chunker (modelled from the spec)

The repository's second fetch implementation — plain HTTP with an
external translation service, the one that batches paragraphs into
size-bounded chunks before translating — is not among the provided
sources, so the Chunker is modelled from §4.2 of the specification. -/

/-- Modelled from the spec: the Chunker's greedy walk (§4.2, the
repository's plain-HTTP fetch implementation is missing from the
sources).  Walk the paragraphs in order keeping a buffer; if appending
the next paragraph, joined by the separator, keeps the joined length at
most the maximum, append it, otherwise flush the buffer as a completed
chunk and start a new buffer holding that paragraph alone; at the end
flush any non-empty buffer. -/
def chunkGo (maxLen : Nat) (sep : String) : List String → List String → List (List String)
  | buf, [] => if buf = [] then [] else [buf]
  | buf, p :: ps =>
    if buf = [] then chunkGo maxLen sep [p] ps
    else if (joinSep sep (buf ++ [p])).length ≤ maxLen then
      chunkGo maxLen sep (buf ++ [p]) ps
    else buf :: chunkGo maxLen sep [p] ps

/-- Modelled from the spec: chunk an ordered paragraph sequence. -/
def chunkParagraphs (maxLen : Nat) (sep : String) (ps : List String) : List (List String) :=
  chunkGo maxLen sep [] ps

/-- Modelled from the spec: the default maximum chunk length. -/
def defaultMaxChunk : Nat := 4800

/-- A legal chunk: its joined length is within the maximum, or it is a
single paragraph that alone exceeds the maximum. -/
def chunkOk (maxLen : Nat) (sep : String) (c : List String) : Prop :=
  (joinSep sep c).length ≤ maxLen ∨ ∃ p, c = [p] ∧ maxLen < p.length

/-- The occurrence side condition for extension replacement: within the
artifact path, `".txt"` occurs only as the final suffix. -/
def dotTxtOnlyAtEnd (b : String) : Prop :=
  ∀ i, i < b.data.length → ¬(".txt".data.isPrefixOf ((b.data ++ ".txt".data).drop i) = true)

/-! ## Concrete worlds used to evaluate the embedding -/

/-- Every probe succeeds, every page load times out. -/
def ceilingWorld : World := ⟨fun _ => .status 200, fun _ => .timeout⟩

/-- Probe of page 2 reports 404, everything else succeeds. -/
def stopAt2World : World :=
  ⟨fun q => if q = 2 then .status 404 else .status 200, fun _ => .timeout⟩

/-- Pages 2 and 3 exist; page 2 renders with no title element, page 3
with title "T"; 404 at page 4. -/
def titleWorld : World :=
  ⟨fun q => if q = 4 then .status 404 else .status 200,
   fun q =>
     if q = 2 then .ok ⟨none, none⟩
     else if q = 3 then .ok ⟨some "T", none⟩ else .timeout⟩

/-- Page 3 renders with title "T"; pages before it time out; probes all
succeed. -/
def titleWitWorld : World :=
  ⟨fun _ => .status 200, fun q => if q = 3 then .ok ⟨some "T", none⟩ else .timeout⟩

/-- Page 2 renders with no content element; 404 at page 3. -/
def emptyRunWorld : World :=
  ⟨fun q => if q = 3 then .status 404 else .status 200,
   fun q => if q = 2 then .ok ⟨none, none⟩ else .timeout⟩

/-- The page-2 load raises; probes all succeed. -/
def raiseWorld : World :=
  ⟨fun _ => .status 200, fun q => if q = 2 then .raise else .timeout⟩

/-- Pages 2 and 3 time out; 404 at page 4. -/
def skipWitWorld : World :=
  ⟨fun q => if q = 4 then .status 404 else .status 200, fun _ => .timeout⟩

/-- Page 2 renders with a content element whose only paragraph strips
to empty and whose raw text is "x"; 404 at page 3. -/
def emptyParasWorld : World :=
  ⟨fun q => if q = 3 then .status 404 else .status 200,
   fun q => if q = 2 then .ok ⟨some "T", some ⟨[""], "x"⟩⟩ else .timeout⟩

/-- Page 2 renders with title "a.txt" and one paragraph "hi"; 404 at
page 3. -/
def dotTxtTitleWorld : World :=
  ⟨fun q => if q = 3 then .status 404 else .status 200,
   fun q => if q = 2 then .ok ⟨some "a.txt", some ⟨["hi"], ""⟩⟩ else .timeout⟩

/-- Page 2 renders without a title element and without content; 404 at
page 4. -/
def noTitleWitWorld : World :=
  ⟨fun q => if q = 4 then .status 404 else .status 200,
   fun q => if q = 2 then .ok ⟨none, none⟩ else .timeout⟩

/-! ## Step-level lemmas -/

theorem stepEvts_probe {w : World} {b d : String} {e : Option Nat} {s : LoopState} {q : Nat}
    (h : Event.probe q ∈ (fetchStep w b d e s).evts) : q = s.page := by
  unfold fetchStep at h
  split at h <;> (try split at h) <;> (try split at h) <;> (try split at h) <;>
    (try split at h) <;> simp_all [StepRes.evts]

theorem stepEvts_append {w : World} {b d : String} {e : Option Nat} {s : LoopState}
    {p : Nat} {t : String} (h : Event.append p t ∈ (fetchStep w b d e s).evts) :
    p = s.page ∧ ∃ pg cd, w.render s.page = .ok pg ∧ pg.contentDiv = some cd ∧
      t = chapterTextOf cd := by
  unfold fetchStep at h
  split at h <;> (try split at h) <;> (try split at h) <;> (try split at h) <;>
    (try split at h) <;> simp_all [StepRes.evts]

theorem stepEvts_skipMissing {w : World} {b d : String} {e : Option Nat} {s : LoopState}
    {p : Nat} (h : Event.skipMissing p ∈ (fetchStep w b d e s).evts) :
    p = s.page ∧ w.render s.page = .timeout := by
  unfold fetchStep at h
  split at h <;> (try split at h) <;> (try split at h) <;> (try split at h) <;>
    (try split at h) <;> simp_all [StepRes.evts]

theorem stepEvts_skipNoContent {w : World} {b d : String} {e : Option Nat} {s : LoopState}
    {p : Nat} (h : Event.skipNoContent p ∈ (fetchStep w b d e s).evts) :
    p = s.page ∧ ∃ pg, w.render s.page = .ok pg ∧ pg.contentDiv = none := by
  unfold fetchStep at h
  split at h <;> (try split at h) <;> (try split at h) <;> (try split at h) <;>
    (try split at h) <;> simp_all [StepRes.evts]

@[simp] theorem setTitle_page (b d : String) (s : LoopState) (pg : PageData) :
    (setTitle b d s pg).page = s.page := by
  unfold setTitle; split <;> rfl

@[simp] theorem setTitle_artifact (b d : String) (s : LoopState) (pg : PageData) :
    (setTitle b d s pg).artifact = s.artifact := by
  unfold setTitle; split <;> rfl

theorem setTitle_of_some {s : LoopState} {t : String} (h : s.novelTitle = some t)
    (b d : String) (pg : PageData) : setTitle b d s pg = s := by
  unfold setTitle; rw [h]

theorem setTitle_of_none {s : LoopState} (h : s.novelTitle = none)
    (b d : String) (pg : PageData) :
    (setTitle b d s pg).novelTitle = some (discoveredTitle b pg) ∧
      (setTitle b d s pg).outputFile = some (artifactPathFor d (discoveredTitle b pg)) := by
  unfold setTitle; rw [h]; exact ⟨rfl, rfl⟩

@[simp] theorem advance_page (s : LoopState) : (advance s).page = s.page + 1 := rfl
@[simp] theorem advance_novelTitle (s : LoopState) : (advance s).novelTitle = s.novelTitle := rfl
@[simp] theorem advance_outputFile (s : LoopState) : (advance s).outputFile = s.outputFile := rfl
@[simp] theorem advance_artifact (s : LoopState) : (advance s).artifact = s.artifact := rfl

@[simp] theorem appendChapter_page (s : LoopState) (t : String) :
    (appendChapter s t).page = s.page := rfl
@[simp] theorem appendChapter_novelTitle (s : LoopState) (t : String) :
    (appendChapter s t).novelTitle = s.novelTitle := rfl
@[simp] theorem appendChapter_outputFile (s : LoopState) (t : String) :
    (appendChapter s t).outputFile = s.outputFile := rfl
@[simp] theorem appendChapter_artifact (s : LoopState) (t : String) :
    (appendChapter s t).artifact = some (s.artifact.getD "" ++ t ++ "\n\n") := rfl

theorem probeStops_false {h : HeadResult} (hp : probeStops h = false) :
    ∃ c, h = .status c ∧ c ≠ 404 := by
  cases h with
  | raise => simp [probeStops] at hp
  | status c => exact ⟨c, rfl, by simpa [probeStops] using hp⟩

theorem fetchStep_eq_limit {w : World} {b d : String} {e : Option Nat} {s : LoopState}
    (hc : ceilingHit e s.page = true) :
    fetchStep w b d e s = .stop (.finished s) [.stopLimit] := by
  unfold fetchStep; rw [hc]; rfl

theorem fetchStep_eq_probeStop {w : World} {b d : String} {e : Option Nat} {s : LoopState}
    (hc : ceilingHit e s.page = false) (hp : probeStops (w.head s.page) = true) :
    fetchStep w b d e s =
      .stop (.finished s) [.probe s.page, stopEvent s.page (w.head s.page)] := by
  unfold fetchStep
  rw [hc]
  cases hh : w.head s.page with
  | raise => simp [stopEvent]
  | status c =>
    have hcode : c = 404 := by
      rw [hh] at hp; simpa [probeStops] using hp
    simp [hcode, stopEvent]

theorem fetchStep_eq_render_raise {w : World} {b d : String} {e : Option Nat} {s : LoopState}
    (hc : ceilingHit e s.page = false) (hp : probeStops (w.head s.page) = false)
    (hr : w.render s.page = .raise) :
    fetchStep w b d e s = .stop (.raised s) [.probe s.page] := by
  obtain ⟨c, hh, hne⟩ := probeStops_false hp
  unfold fetchStep
  rw [hc, hh]
  simp [hne, hr]

theorem fetchStep_eq_timeout {w : World} {b d : String} {e : Option Nat} {s : LoopState}
    (hc : ceilingHit e s.page = false) (hp : probeStops (w.head s.page) = false)
    (hr : w.render s.page = .timeout) :
    fetchStep w b d e s = .next (advance s) [.probe s.page, .skipMissing s.page] := by
  obtain ⟨c, hh, hne⟩ := probeStops_false hp
  unfold fetchStep
  rw [hc, hh]
  simp [hne, hr]

theorem fetchStep_eq_ok_none {w : World} {b d : String} {e : Option Nat} {s : LoopState}
    {pg : PageData} (hc : ceilingHit e s.page = false)
    (hp : probeStops (w.head s.page) = false) (hr : w.render s.page = .ok pg)
    (hcd : pg.contentDiv = none) :
    fetchStep w b d e s =
      .next (advance (setTitle b d s pg)) [.probe s.page, .skipNoContent s.page] := by
  obtain ⟨c, hh, hne⟩ := probeStops_false hp
  unfold fetchStep
  rw [hc, hh]
  simp [hne, hr, hcd]

theorem fetchStep_eq_ok_some {w : World} {b d : String} {e : Option Nat} {s : LoopState}
    {pg : PageData} {cd : ContentDiv} (hc : ceilingHit e s.page = false)
    (hp : probeStops (w.head s.page) = false) (hr : w.render s.page = .ok pg)
    (hcd : pg.contentDiv = some cd) :
    fetchStep w b d e s =
      .next (advance (appendChapter (setTitle b d s pg) (chapterTextOf cd)))
        [.probe s.page, .append s.page (chapterTextOf cd)] := by
  obtain ⟨c, hh, hne⟩ := probeStops_false hp
  unfold fetchStep
  rw [hc, hh]
  simp [hne, hr, hcd]

theorem step_next_ceiling_probe {w : World} {b d : String} {e : Option Nat}
    {s s' : LoopState} {evts : List Event}
    (h : fetchStep w b d e s = .next s' evts) :
    ceilingHit e s.page = false ∧ probeStops (w.head s.page) = false := by
  unfold fetchStep at h
  split at h <;> (try split at h) <;> (try split at h) <;> (try split at h) <;>
    (try split at h) <;> simp_all [probeStops]

theorem step_next_page {w : World} {b d : String} {e : Option Nat}
    {s s' : LoopState} {evts : List Event}
    (h : fetchStep w b d e s = .next s' evts) : s'.page = s.page + 1 := by
  unfold fetchStep at h
  split at h <;> (try split at h) <;> (try split at h) <;> (try split at h) <;>
    (try split at h) <;> simp_all <;> simp [← h]

theorem step_next_keepTitle {w : World} {b d : String} {e : Option Nat}
    {s s' : LoopState} {evts : List Event} {t : String}
    (hst : s.novelTitle = some t) (h : fetchStep w b d e s = .next s' evts) :
    s'.novelTitle = some t ∧ s'.outputFile = s.outputFile := by
  unfold fetchStep at h
  split at h <;> (try split at h) <;> (try split at h) <;> (try split at h) <;>
    (try split at h) <;> simp_all <;> simp [← h, setTitle_of_some hst, hst]

theorem step_stop_state {w : World} {b d : String} {e : Option Nat} {s : LoopState}
    {r : RunResult} {evts : List Event}
    (h : fetchStep w b d e s = .stop r evts) : r.state = s := by
  unfold fetchStep at h
  split at h <;> (try split at h) <;> (try split at h) <;> (try split at h) <;>
    (try split at h) <;> simp_all [RunResult.state] <;> simp [← h.1, RunResult.state]

theorem step_stop_no_append {w : World} {b d : String} {e : Option Nat} {s : LoopState}
    {r : RunResult} {evts : List Event}
    (h : fetchStep w b d e s = .stop r evts) :
    ∀ p t, Event.append p t ∉ evts := by
  unfold fetchStep at h
  split at h <;> (try split at h) <;> (try split at h) <;> (try split at h) <;>
    (try split at h) <;> simp_all <;> simp [← h.2]

theorem step_next_artifact {w : World} {b d : String} {e : Option Nat}
    {s s' : LoopState} {evts : List Event}
    (h : fetchStep w b d e s = .next s' evts) :
    (s'.artifact = s.artifact ∧ ∀ p t, Event.append p t ∉ evts) ∨
      ∃ t, Event.append s.page t ∈ evts ∧
        s'.artifact = some (s.artifact.getD "" ++ t ++ "\n\n") := by
  obtain ⟨hc, hp⟩ := step_next_ceiling_probe h
  cases hr : w.render s.page with
  | raise => rw [fetchStep_eq_render_raise hc hp hr] at h; exact StepRes.noConfusion h
  | timeout =>
    rw [fetchStep_eq_timeout hc hp hr] at h
    injection h with h1 h2
    subst h1; subst h2
    left; simp
  | ok pg =>
    cases hcd : pg.contentDiv with
    | none =>
      rw [fetchStep_eq_ok_none hc hp hr hcd] at h
      injection h with h1 h2
      subst h1; subst h2
      left; simp
    | some cd =>
      rw [fetchStep_eq_ok_some hc hp hr hcd] at h
      injection h with h1 h2
      subst h1; subst h2
      right
      exact ⟨chapterTextOf cd, by simp, by simp⟩

theorem fetchLoop_zero (w : World) (b d : String) (e : Option Nat) (s : LoopState) :
    fetchLoop w b d e 0 s = (.outOfFuel s, []) := rfl

theorem fetchLoop_succ_stop {w : World} {b d : String} {e : Option Nat} {s : LoopState}
    {r : RunResult} {evts : List Event} (fuel : Nat)
    (h : fetchStep w b d e s = .stop r evts) :
    fetchLoop w b d e (fuel + 1) s = (r, evts) := by
  simp [fetchLoop, h]

theorem fetchLoop_succ_next {w : World} {b d : String} {e : Option Nat} {s s' : LoopState}
    {evts : List Event} (fuel : Nat)
    (h : fetchStep w b d e s = .next s' evts) :
    fetchLoop w b d e (fuel + 1) s =
      ((fetchLoop w b d e fuel s').1, evts ++ (fetchLoop w b d e fuel s').2) := by
  simp [fetchLoop, h]

theorem step_stop_no_skip {w : World} {b d : String} {e : Option Nat} {s : LoopState}
    {r : RunResult} {evts : List Event}
    (h : fetchStep w b d e s = .stop r evts) :
    ∀ p, Event.skipMissing p ∉ evts ∧ Event.skipNoContent p ∉ evts := by
  unfold fetchStep at h
  split at h <;> (try split at h) <;> (try split at h) <;> (try split at h) <;>
    (try split at h) <;> simp_all <;> simp [← h.2]

theorem step_next_appendPages {w : World} {b d : String} {e : Option Nat}
    {s s' : LoopState} {evts : List Event}
    (h : fetchStep w b d e s = .next s' evts) :
    appendPages evts = [] ∨ appendPages evts = [s.page] := by
  obtain ⟨hc, hp⟩ := step_next_ceiling_probe h
  cases hr : w.render s.page with
  | raise => rw [fetchStep_eq_render_raise hc hp hr] at h; exact StepRes.noConfusion h
  | timeout =>
    rw [fetchStep_eq_timeout hc hp hr] at h
    injection h with h1 h2
    subst h2; left; rfl
  | ok pg =>
    cases hcd : pg.contentDiv with
    | none =>
      rw [fetchStep_eq_ok_none hc hp hr hcd] at h
      injection h with h1 h2
      subst h2; left; rfl
    | some cd =>
      rw [fetchStep_eq_ok_some hc hp hr hcd] at h
      injection h with h1 h2
      subst h2; right; rfl

theorem appendPages_append (l l' : List Event) :
    appendPages (l ++ l') = appendPages l ++ appendPages l' := by
  simp [appendPages]

theorem appendPages_nil_of {l : List Event}
    (h : ∀ p t, Event.append p t ∉ l) : appendPages l = [] := by
  induction l with
  | nil => rfl
  | cons e es ih =>
    have he : ∀ p t, Event.append p t ∉ es := fun p t hm => h p t (List.mem_cons_of_mem _ hm)
    cases e with
    | append p t => exact absurd (List.mem_cons_self _ _) (h p t)
    | probe q => simpa [appendPages] using ih he
    | stopLimit => simpa [appendPages] using ih he
    | stopHeadErr q => simpa [appendPages] using ih he
    | stop404 q => simpa [appendPages] using ih he
    | skipMissing q => simpa [appendPages] using ih he
    | skipNoContent q => simpa [appendPages] using ih he

/-- If the loop starts with fuel and no ceiling, its first event is the
probe of the current page. -/
theorem loop_probe_mem {w : World} {b d : String} {s : LoopState} {fuel : Nat}
    (hf : 1 ≤ fuel) : Event.probe s.page ∈ (fetchLoop w b d none fuel s).2 := by
  obtain ⟨f, rfl⟩ : ∃ f, fuel = f + 1 := ⟨fuel - 1, by omega⟩
  have hc : ceilingHit none s.page = false := rfl
  cases hp : probeStops (w.head s.page) with
  | true =>
    rw [fetchLoop_succ_stop f (fetchStep_eq_probeStop hc hp)]
    simp
  | false =>
    cases hr : w.render s.page with
    | raise =>
      rw [fetchLoop_succ_stop f (fetchStep_eq_render_raise hc hp hr)]
      simp
    | timeout =>
      rw [fetchLoop_succ_next f (fetchStep_eq_timeout hc hp hr)]
      simp
    | ok pg =>
      cases hcd : pg.contentDiv with
      | none =>
        rw [fetchLoop_succ_next f (fetchStep_eq_ok_none hc hp hr hcd)]
        simp
      | some cd =>
        rw [fetchLoop_succ_next f (fetchStep_eq_ok_some hc hp hr hcd)]
        simp

/-- Once `novel_title` is set, the rest of the run never changes it nor
the output path. -/
theorem loop_keepTitle {w : World} {b d : String} {e : Option Nat} {t : String} :
    ∀ (fuel : Nat) (s : LoopState), s.novelTitle = some t →
      (fetchLoop w b d e fuel s).1.state.novelTitle = some t ∧
        (fetchLoop w b d e fuel s).1.state.outputFile = s.outputFile := by
  intro fuel
  induction fuel with
  | zero => intro s hs; exact ⟨hs, rfl⟩
  | succ f ih =>
    intro s hs
    cases hstep : fetchStep w b d e s with
    | stop r evts =>
      rw [fetchLoop_succ_stop f hstep]
      rw [step_stop_state hstep]
      exact ⟨hs, rfl⟩
    | next s' evts =>
      rw [fetchLoop_succ_next f hstep]
      obtain ⟨h1, h2⟩ := step_next_keepTitle hs hstep
      obtain ⟨ih1, ih2⟩ := ih s' h1
      exact ⟨ih1, by rw [ih2, h2]⟩

/-- Every append event in a trace comes from a page that rendered with
a content element, carries that element's chapter text, and lies at or
after the starting page. -/
theorem loop_append_mem {w : World} {b d : String} {e : Option Nat} {p : Nat} {t : String} :
    ∀ (fuel : Nat) (s : LoopState), Event.append p t ∈ (fetchLoop w b d e fuel s).2 →
      (∃ pg cd, w.render p = .ok pg ∧ pg.contentDiv = some cd ∧ t = chapterTextOf cd) ∧
        s.page ≤ p := by
  intro fuel
  induction fuel with
  | zero => intro s hs; simp [fetchLoop_zero] at hs
  | succ f ih =>
    intro s hs
    cases hstep : fetchStep w b d e s with
    | stop r evts =>
      rw [fetchLoop_succ_stop f hstep] at hs
      exact absurd hs (step_stop_no_append hstep p t)
    | next s' evts =>
      rw [fetchLoop_succ_next f hstep] at hs
      rcases List.mem_append.1 hs with hm | hm
      · have hm' : Event.append p t ∈ (fetchStep w b d e s).evts := by
          rw [hstep]; exact hm
        obtain ⟨hpq, hrest⟩ := stepEvts_append hm'
        exact ⟨hpq ▸ hrest, le_of_eq hpq.symm⟩
      · obtain ⟨hfact, hle⟩ := ih s' hm
        have := step_next_page hstep
        exact ⟨hfact, by omega⟩

/-- Append events occur in strictly increasing page order, all at or
after the starting page. -/
theorem loop_appendPages {w : World} {b d : String} {e : Option Nat} :
    ∀ (fuel : Nat) (s : LoopState),
      (appendPages (fetchLoop w b d e fuel s).2).Pairwise (· < ·) ∧
        ∀ q ∈ appendPages (fetchLoop w b d e fuel s).2, s.page ≤ q := by
  intro fuel
  induction fuel with
  | zero => intro s; simp [fetchLoop_zero, appendPages]
  | succ f ih =>
    intro s
    cases hstep : fetchStep w b d e s with
    | stop r evts =>
      rw [fetchLoop_succ_stop f hstep]
      simp [appendPages_nil_of (step_stop_no_append hstep)]
    | next s' evts =>
      rw [fetchLoop_succ_next f hstep]
      obtain ⟨ih1, ih2⟩ := ih s'
      have hpage := step_next_page hstep
      rw [appendPages_append]
      rcases step_next_appendPages hstep with hev | hev <;> rw [hev]
      · refine ⟨by simpa using ih1, ?_⟩
        intro q hq
        have := ih2 q (by simpa using hq)
        omega
      · refine ⟨?_, ?_⟩
        · refine List.Pairwise.cons ?_ ih1
          intro q hq
          have := ih2 q hq
          omega
        · intro q hq
          rcases List.mem_cons.1 hq with rfl | hq'
          · exact le_refl _
          · have := ih2 q hq'
            omega

/-- With no ceiling, after any skipped or appended page the loop goes on
to probe the next index, unless the embedding ran out of fuel. -/
theorem loop_continue {w : World} {b d : String} {p : Nat} :
    ∀ (fuel : Nat) (s : LoopState),
      (fetchLoop w b d none fuel s).1.isOutOfFuel = false →
      (Event.skipMissing p ∈ (fetchLoop w b d none fuel s).2 ∨
        Event.skipNoContent p ∈ (fetchLoop w b d none fuel s).2 ∨
        ∃ t, Event.append p t ∈ (fetchLoop w b d none fuel s).2) →
      Event.probe (p + 1) ∈ (fetchLoop w b d none fuel s).2 := by
  intro fuel
  induction fuel with
  | zero =>
    intro s h1 _
    simp [fetchLoop_zero, RunResult.isOutOfFuel] at h1
  | succ f ih =>
    intro s h1 h2
    cases hstep : fetchStep w b d none s with
    | stop r evts =>
      rw [fetchLoop_succ_stop f hstep] at h2
      exfalso
      rcases h2 with hm | hm | ⟨t, hm⟩
      · exact (step_stop_no_skip hstep p).1 hm
      · exact (step_stop_no_skip hstep p).2 hm
      · exact step_stop_no_append hstep p t hm
    | next s' evts =>
      rw [fetchLoop_succ_next f hstep] at h1 h2 ⊢
      have hf1 : 1 ≤ f := by
        rcases Nat.eq_zero_or_pos f with rfl | h
        · simp [fetchLoop_zero, RunResult.isOutOfFuel] at h1
        · exact h
      have hpage := step_next_page hstep
      have hcase : p = s.page ∨ (Event.skipMissing p ∈ (fetchLoop w b d none f s').2 ∨
          Event.skipNoContent p ∈ (fetchLoop w b d none f s').2 ∨
          ∃ t, Event.append p t ∈ (fetchLoop w b d none f s').2) := by
        rcases h2 with hm | hm | ⟨t, hm⟩ <;> rcases List.mem_append.1 hm with hm' | hm'
        · exact Or.inl (stepEvts_skipMissing (by rw [hstep]; exact hm')).1
        · exact Or.inr (Or.inl hm')
        · exact Or.inl (stepEvts_skipNoContent (by rw [hstep]; exact hm')).1
        · exact Or.inr (Or.inr (Or.inl hm'))
        · exact Or.inl (stepEvts_append (by rw [hstep]; exact hm')).1
        · exact Or.inr (Or.inr (Or.inr ⟨t, hm'⟩))
      rcases hcase with rfl | hrest
      · refine List.mem_append.2 (Or.inr ?_)
        have := loop_probe_mem (w := w) (b := b) (d := d) (s := s') hf1
        rwa [hpage] at this
      · exact List.mem_append.2 (Or.inr (ih s' h1 hrest))

/-- The artifact file exists at the end of the run exactly when it
existed initially or some append happened: the file is created by the
first append, never earlier. -/
theorem loop_artifact_iff {w : World} {b d : String} {e : Option Nat} :
    ∀ (fuel : Nat) (s : LoopState),
      (fetchLoop w b d e fuel s).1.state.artifact = none ↔
        (s.artifact = none ∧ ∀ p t, Event.append p t ∉ (fetchLoop w b d e fuel s).2) := by
  intro fuel
  induction fuel with
  | zero => intro s; simp [fetchLoop_zero, RunResult.state]
  | succ f ih =>
    intro s
    cases hstep : fetchStep w b d e s with
    | stop r evts =>
      rw [fetchLoop_succ_stop f hstep]
      simp only []
      rw [step_stop_state hstep]
      exact ⟨fun h => ⟨h, step_stop_no_append hstep⟩, fun h => h.1⟩
    | next s' evts =>
      rw [fetchLoop_succ_next f hstep]
      simp only []
      rcases step_next_artifact hstep with ⟨ha, hno⟩ | ⟨t, hmem, ha⟩
      · rw [ih s', ha]
        constructor
        · rintro ⟨h1, h2⟩
          refine ⟨h1, fun p t hm => ?_⟩
          rcases List.mem_append.1 hm with hm' | hm'
          · exact hno p t hm'
          · exact h2 p t hm'
        · rintro ⟨h1, h2⟩
          exact ⟨h1, fun p t hm => h2 p t (List.mem_append.2 (Or.inr hm))⟩
      · constructor
        · intro h
          have := ((ih s').1 h).1
          rw [ha] at this
          exact absurd this (by simp)
        · rintro ⟨h1, h2⟩
          exact absurd (List.mem_append.2 (Or.inl hmem)) (h2 s.page t)

/-- The title (and output path) of a whole run are decided by the first
page that renders: pages before it that pass the probe but time out are
skipped without touching the title, the first rendered page sets it, and
it is never changed afterwards. -/
theorem loop_title_first_render {w : World} {b d : String} {e : Option Nat} {pg : PageData} :
    ∀ (fuel : Nat) (s : LoopState) (p : Nat),
      s.novelTitle = none → s.page ≤ p → p - s.page < fuel →
      (∀ q, s.page ≤ q → q ≤ p → ceilingHit e q = false) →
      (∀ q, s.page ≤ q → q ≤ p → probeStops (w.head q) = false) →
      (∀ q, s.page ≤ q → q < p → w.render q = .timeout) →
      w.render p = .ok pg →
      (fetchLoop w b d e fuel s).1.state.novelTitle = some (discoveredTitle b pg) ∧
        (fetchLoop w b d e fuel s).1.state.outputFile =
          some (artifactPathFor d (discoveredTitle b pg)) := by
  intro fuel
  induction fuel with
  | zero => intro s p _ _ hf _ _ _ _; omega
  | succ f ih =>
    intro s p hnone hle hf hceil hhead hmiss hok
    have hc : ceilingHit e s.page = false := hceil s.page (le_refl _) hle
    have hp : probeStops (w.head s.page) = false := hhead s.page (le_refl _) hle
    rcases Nat.lt_or_ge s.page p with hlt | hge
    · have hr : w.render s.page = .timeout := hmiss s.page (le_refl _) hlt
      rw [fetchLoop_succ_next f (fetchStep_eq_timeout hc hp hr)]
      refine ih (advance s) p (by simpa using hnone) (by simp; omega) (by simp; omega)
        (fun q hq1 hq2 => hceil q (by simp at hq1; omega) hq2)
        (fun q hq1 hq2 => hhead q (by simp at hq1; omega) hq2)
        (fun q hq1 hq2 => hmiss q (by simp at hq1; omega) hq2)
        hok
    · have hpe : s.page = p := le_antisymm hle hge
      have hr : w.render s.page = .ok pg := by rw [hpe]; exact hok
      obtain ⟨hset1, hset2⟩ := setTitle_of_none hnone b d pg
      cases hcd : pg.contentDiv with
      | none =>
        rw [fetchLoop_succ_next f (fetchStep_eq_ok_none hc hp hr hcd)]
        obtain ⟨t1, t2⟩ := loop_keepTitle f (advance (setTitle b d s pg)) (by simpa using hset1)
        exact ⟨t1, by rw [t2]; simpa using hset2⟩
      | some cd =>
        rw [fetchLoop_succ_next f (fetchStep_eq_ok_some hc hp hr hcd)]
        obtain ⟨t1, t2⟩ :=
          loop_keepTitle f (advance (appendChapter (setTitle b d s pg) (chapterTextOf cd)))
            (by simpa using hset1)
        exact ⟨t1, by rw [t2]; simpa using hset2⟩

theorem stopEvent_ne_probe (q q' : Nat) (h : HeadResult) :
    stopEvent q h ≠ Event.probe q' := by
  cases h <;> simp [stopEvent]

/-- If the probe for page `k` terminates (404 or exception) then a run
whose current page is at or before `k` never probes `k + 1`, and if it
does probe `k` then the trace ends with that probe and its stop event
and the loop breaks normally. -/
theorem loop_probe_stop {w : World} {b d : String} {e : Option Nat} {k : Nat}
    (hstop : probeStops (w.head k) = true) :
    ∀ (fuel : Nat) (s : LoopState), s.page ≤ k →
      Event.probe (k + 1) ∉ (fetchLoop w b d e fuel s).2 ∧
      (Event.probe k ∈ (fetchLoop w b d e fuel s).2 →
        ∃ pre s', (fetchLoop w b d e fuel s).2 =
            pre ++ [Event.probe k, stopEvent k (w.head k)] ∧
          (fetchLoop w b d e fuel s).1 = .finished s') := by
  intro fuel
  induction fuel with
  | zero => intro s hk; simp [fetchLoop_zero]
  | succ f ih =>
    intro s hk
    cases hc : ceilingHit e s.page with
    | true =>
      rw [fetchLoop_succ_stop f (fetchStep_eq_limit hc)]
      exact ⟨by simp, by intro hm; simp at hm⟩
    | false =>
      by_cases hpk : s.page = k
      · rw [fetchLoop_succ_stop f (fetchStep_eq_probeStop hc (hpk ▸ hstop))]
        constructor
        · intro hm
          simp at hm
          rcases hm with hm | hm
          · omega
          · exact stopEvent_ne_probe _ _ _ hm.symm
        · intro _
          exact ⟨[], s, by subst hpk; rfl, rfl⟩
      · have hlt : s.page < k := lt_of_le_of_ne hk hpk
        cases hp : probeStops (w.head s.page) with
        | true =>
          rw [fetchLoop_succ_stop f (fetchStep_eq_probeStop hc hp)]
          constructor
          · intro hm
            simp at hm
            rcases hm with hm | hm
            · omega
            · exact stopEvent_ne_probe _ _ _ hm.symm
          · intro hm
            simp at hm
            rcases hm with hm | hm
            · omega
            · exact absurd hm.symm (stopEvent_ne_probe _ _ _)
        | false =>
          have hnext : ∀ s' evts, fetchStep w b d e s = .next s' evts →
              (∀ q, Event.probe q ∈ evts → q = s.page) →
              Event.probe (k + 1) ∉ evts ++ (fetchLoop w b d e f s').2 ∧
              (Event.probe k ∈ evts ++ (fetchLoop w b d e f s').2 →
                ∃ pre s'', evts ++ (fetchLoop w b d e f s').2 =
                    pre ++ [Event.probe k, stopEvent k (w.head k)] ∧
                  (fetchLoop w b d e f s').1 = .finished s'') := by
            intro s' evts hstep hq
            have hpage := step_next_page hstep
            obtain ⟨ihn, ihm⟩ := ih s' (by omega)
            constructor
            · intro hm
              rcases List.mem_append.1 hm with hm' | hm'
              · have := hq _ hm'; omega
              · exact ihn hm'
            · intro hm
              rcases List.mem_append.1 hm with hm' | hm'
              · have := hq _ hm'; omega
              · obtain ⟨pre, s'', htr, hres⟩ := ihm hm'
                exact ⟨evts ++ pre, s'', by rw [htr, List.append_assoc], hres⟩
          cases hr : w.render s.page with
          | raise =>
            rw [fetchLoop_succ_stop f (fetchStep_eq_render_raise hc hp hr)]
            constructor
            · intro hm; simp at hm; omega
            · intro hm; simp at hm; omega
          | timeout =>
            have hstep := fetchStep_eq_timeout (w := w) (b := b) (d := d) hc hp hr
            rw [fetchLoop_succ_next f hstep]
            exact hnext _ _ hstep (by intro q hq; simp at hq; exact hq)
          | ok pg =>
            cases hcd : pg.contentDiv with
            | none =>
              have hstep := fetchStep_eq_ok_none (b := b) (d := d) hc hp hr hcd
              rw [fetchLoop_succ_next f hstep]
              exact hnext _ _ hstep (by intro q hq; simp at hq; exact hq)
            | some cd =>
              have hstep := fetchStep_eq_ok_some (b := b) (d := d) hc hp hr hcd
              rw [fetchLoop_succ_next f hstep]
              exact hnext _ _ hstep (by intro q hq; simp at hq; exact hq)

/-! ## Chunker lemmas -/

theorem chunkOk_single (maxLen : Nat) (sep : String) (p : String) :
    chunkOk maxLen sep [p] := by
  rcases le_or_lt p.length maxLen with h | h
  · left; simpa [joinSep] using h
  · right; exact ⟨p, rfl, h⟩

theorem chunkGo_join (maxLen : Nat) (sep : String) :
    ∀ (ps buf : List String), (chunkGo maxLen sep buf ps).flatten = buf ++ ps := by
  intro ps
  induction ps with
  | nil =>
    intro buf
    by_cases h : buf = [] <;> simp [chunkGo, h]
  | cons p ps ih =>
    intro buf
    by_cases h : buf = []
    · simp [chunkGo, h, ih]
    · by_cases h2 : (joinSep sep (buf ++ [p])).length ≤ maxLen <;>
        simp [chunkGo, h, h2, ih]

theorem chunkGo_bound (maxLen : Nat) (sep : String) :
    ∀ (ps buf : List String), (buf = [] ∨ chunkOk maxLen sep buf) →
      ∀ c ∈ chunkGo maxLen sep buf ps, chunkOk maxLen sep c := by
  intro ps
  induction ps with
  | nil =>
    intro buf hbuf c hc
    by_cases h : buf = []
    · simp [chunkGo, h] at hc
    · simp [chunkGo, h] at hc
      subst hc
      rcases hbuf with h' | h'
      · exact absurd h' h
      · exact h'
  | cons p ps ih =>
    intro buf hbuf c hc
    by_cases h : buf = []
    · simp [chunkGo, h] at hc
      exact ih [p] (Or.inr (chunkOk_single _ _ _)) c hc
    · by_cases h2 : (joinSep sep (buf ++ [p])).length ≤ maxLen
      · simp [chunkGo, h, h2] at hc
        exact ih _ (Or.inr (Or.inl h2)) c hc
      · simp [chunkGo, h, h2] at hc
        rcases hc with rfl | hc
        · rcases hbuf with h' | h'
          · exact absurd h' h
          · exact h'
        · exact ih [p] (Or.inr (chunkOk_single _ _ _)) c hc

/-! ## Lemmas about `str.replace` -/

theorem replaceAllAux_nil (pat repl : List Char) (fuel : Nat) :
    replaceAllAux pat repl fuel [] = [] := by
  cases fuel <;> rfl

theorem isPrefixOf_self (l : List Char) : l.isPrefixOf l = true := by
  induction l with
  | nil => rfl
  | cons c cs ih => simp [List.isPrefixOf, ih]

/-- If the pattern occurs in `a ++ pat` only as its final suffix, then
replacement rewrites exactly that suffix. -/
theorem replaceAllAux_tail (pat repl : List Char) (hne : pat ≠ []) :
    ∀ (a : List Char) (fuel : Nat), a.length + 1 ≤ fuel →
      (∀ i, i < a.length → ¬(pat.isPrefixOf ((a ++ pat).drop i) = true)) →
      replaceAllAux pat repl fuel (a ++ pat) = a ++ repl := by
  intro a
  induction a with
  | nil =>
    intro fuel hf hocc
    obtain ⟨f, rfl⟩ : ∃ f, fuel = f + 1 := ⟨fuel - 1, by omega⟩
    obtain ⟨c, cs, hpat⟩ : ∃ c cs, pat = c :: cs := by
      cases pat with
      | nil => exact absurd rfl hne
      | cons c cs => exact ⟨c, cs, rfl⟩
    simp only [List.nil_append]
    rw [hpat]
    show replaceAllAux (c :: cs) repl (f + 1) (c :: cs) = [] ++ repl
    rw [replaceAllAux, if_pos ⟨by simp, isPrefixOf_self _⟩]
    rw [show (c :: cs).drop (c :: cs).length = [] from List.drop_length _]
    rw [replaceAllAux_nil]
    simp
  | cons x a ih =>
    intro fuel hf hocc
    obtain ⟨f, rfl⟩ : ∃ f, fuel = f + 1 := ⟨fuel - 1, by omega⟩
    have h0 : ¬(pat.isPrefixOf (x :: (a ++ pat)) = true) := by
      have := hocc 0 (by simp)
      simpa using this
    show replaceAllAux pat repl (f + 1) (x :: (a ++ pat)) = x :: (a ++ repl)
    rw [replaceAllAux, if_neg (fun hcontra => h0 hcontra.2)]
    congr 1
    refine ih f (by simpa using Nat.succ_le_succ_iff.1 hf) ?_
    intro i hi
    have := hocc (i + 1) (by simpa using Nat.succ_lt_succ hi)
    simpa using this

/-! ## Lemmas about `str.split('/')` and the fallback title -/

theorem splitOnCharL_ne_nil (sep : Char) (cs : List Char) : splitOnCharL sep cs ≠ [] := by
  cases cs with
  | nil => simp [splitOnCharL]
  | cons c cs =>
    cases h : splitOnCharL sep cs with
    | nil => simp [splitOnCharL, h]
    | cons g gs =>
      by_cases hc : c = sep <;> simp [splitOnCharL, h, hc]

theorem getLastD_cons_ne {α : Type} (a d : α) {l : List α} (h : l ≠ []) :
    (a :: l).getLastD d = l.getLastD d := by
  cases l with
  | nil => exact absurd rfl h
  | cons b l' => rfl

theorem getLast?_cons_ne {α : Type} (a : α) {l : List α} (h : l ≠ []) :
    (a :: l).getLast? = l.getLast? := by
  cases l with
  | nil => exact absurd rfl h
  | cons b l' => exact List.getLast?_cons_cons

theorem splitOnCharL_cons (sep c : Char) (cs : List Char) {g : List Char}
    {gs : List (List Char)} (h : splitOnCharL sep cs = g :: gs) :
    splitOnCharL sep (c :: cs) =
      if c = sep then [] :: g :: gs else (c :: g) :: gs := by
  rw [splitOnCharL, h]

theorem splitOnCharL_singleton (sep : Char) :
    ∀ (cs : List Char) (g : List Char), splitOnCharL sep cs = [g] → cs = g ∧ sep ∉ g := by
  intro cs
  induction cs with
  | nil =>
    intro g hg
    simp [splitOnCharL] at hg
    subst hg
    exact ⟨rfl, by simp⟩
  | cons c cs ih =>
    intro g hg
    cases h : splitOnCharL sep cs with
    | nil => exact absurd h (splitOnCharL_ne_nil sep cs)
    | cons g' gs' =>
      rw [splitOnCharL_cons sep c cs h] at hg
      by_cases hc : c = sep
      · rw [if_pos hc] at hg
        simp at hg
      · rw [if_neg hc] at hg
        simp at hg
        obtain ⟨rfl, rfl⟩ := hg
        obtain ⟨h1, h2⟩ := ih g' h
        exact ⟨by rw [h1], by simp [h2, Ne.symm hc]⟩

theorem splitOnCharL_two (sep : Char) :
    ∀ (cs : List Char), 2 ≤ (splitOnCharL sep cs).length → sep ∈ cs := by
  intro cs
  induction cs with
  | nil => intro h; simp [splitOnCharL] at h
  | cons c cs ih =>
    intro h
    cases hs : splitOnCharL sep cs with
    | nil => exact absurd hs (splitOnCharL_ne_nil sep cs)
    | cons g' gs' =>
      by_cases hc : c = sep
      · exact hc ▸ List.mem_cons_self _ _
      · rw [splitOnCharL_cons sep c cs hs, if_neg hc] at h
        rcases gs' with _ | ⟨x, xs⟩
        · simp at h
        · exact List.mem_cons_of_mem _ (ih (by rw [hs]; simp))

/-- The last group of a `'/'`-split is a suffix containing no slash,
preceded either by nothing or by a prefix ending in a slash: it is
exactly the substring after the last slash. -/
theorem splitOnCharL_getLastD (sep : Char) :
    ∀ (cs : List Char), ∃ pre, cs = pre ++ (splitOnCharL sep cs).getLastD [] ∧
      sep ∉ (splitOnCharL sep cs).getLastD [] ∧
      (pre = [] ∨ pre.getLast? = some sep) := by
  intro cs
  induction cs with
  | nil => exact ⟨[], by simp [splitOnCharL], by simp [splitOnCharL], Or.inl rfl⟩
  | cons c cs ih =>
    cases h : splitOnCharL sep cs with
    | nil => exact absurd h (splitOnCharL_ne_nil sep cs)
    | cons g' gs' =>
      obtain ⟨pre', hpre, hnot, hlast⟩ := ih
      by_cases hc : c = sep
      · rw [splitOnCharL_cons sep c cs h, if_pos hc]
        rw [getLastD_cons_ne _ _ (by simp)]
        rw [h] at hpre hnot
        refine ⟨c :: pre', by simpa using hpre, hnot, Or.inr ?_⟩
        rcases hlast with rfl | hl
        · simp [hc]
        · rw [getLast?_cons_ne _ (by rintro rfl; simp at hl)]
          exact hl
      · rw [splitOnCharL_cons sep c cs h, if_neg hc]
        cases gs' with
        | nil =>
          obtain ⟨h1, h2⟩ := splitOnCharL_singleton sep cs g' h
          exact ⟨[], by simp [h1], by simp [h2, Ne.symm hc], Or.inl rfl⟩
        | cons x xs =>
          rw [getLastD_cons_ne _ _ (by simp)]
          rw [h] at hpre hnot
          rw [getLastD_cons_ne _ _ (by simp)] at hpre hnot
          have hpre'ne : pre' ≠ [] := by
            rintro rfl
            simp at hpre
            have : sep ∈ cs := splitOnCharL_two sep cs (by rw [h]; simp)
            rw [hpre] at this
            exact hnot this
          refine ⟨c :: pre', by simpa using hpre, hnot, Or.inr ?_⟩
          rw [getLast?_cons_ne _ hpre'ne]
          rcases hlast with rfl | hl
          · exact absurd rfl hpre'ne
          · exact hl

/-! ## Lemmas about `sanitize_filename` -/

theorem subForbidden_length (cs : List Char) : (subForbidden cs).length = cs.length := by
  induction cs with
  | nil => rfl
  | cons c cs ih => simp [subForbidden, ih]

theorem subForbidden_getD (cs : List Char) :
    ∀ i, (subForbidden cs).getD i 'a' =
      (if cs.getD i 'a' ∈ forbiddenChars then '_' else cs.getD i 'a') := by
  induction cs with
  | nil =>
    intro i
    have ha : 'a' ∉ forbiddenChars := by decide
    simp [subForbidden, ha]
  | cons c cs ih =>
    intro i
    cases i with
    | zero => simp [subForbidden]
    | succ j => simpa [subForbidden] using ih j

/-! ## Remaining small helpers -/

theorem mem_of_getLast?_eq {α : Type} {l : List α} {a : α} (h : l.getLast? = some a) :
    a ∈ l := by
  induction l with
  | nil => simp at h
  | cons b l ih =>
    cases l with
    | nil =>
      simp at h
      simp [h]
    | cons c l' =>
      rw [List.getLast?_cons_cons] at h
      exact List.mem_cons_of_mem _ (ih h)

theorem appendPages_eq_nil_iff (tr : List Event) :
    appendPages tr = [] ↔ ∀ p t, Event.append p t ∉ tr := by
  constructor
  · intro h p t hm
    have : p ∈ appendPages tr := by
      simp only [appendPages, List.mem_filterMap]
      exact ⟨Event.append p t, hm, rfl⟩
    rw [h] at this
    simp at this
  · exact appendPages_nil_of

theorem chapterTextOf_empty {cd : ContentDiv}
    (h : cd.pTexts.filter (fun p => p != "") = []) :
    chapterTextOf cd = normalizeRaw cd.rawText := by
  unfold chapterTextOf
  rw [h]
  rfl

theorem finalizeRun_finished (s : LoopState) :
    finalizeRun (.finished s) =
      match s.outputFile with
      | none => .noDocument s
      | some path =>
        match s.artifact with
        | none => .exn
        | some fullText =>
          .wroteEpub (pyReplace path ".txt" ".epub") (s.novelTitle.getD "")
            (epubParagraphs fullText) := rfl

/-! ## Claim theorems -/

/-- C1: for every run and every page index k at or after the current
page, if the existence probe for page k reports 404 or the probe request
itself raises, the run terminates after exactly that probe — when probe
k appears in the trace, the trace ends with it and its stop event and
the loop breaks normally — and no probe for index k+1 is ever issued. -/
theorem C1_probe_absence_terminates (w : World) (b d : String) (e : Option Nat)
    (fuel : Nat) (s : LoopState) (k : Nat)
    (hstop : probeStops (w.head k) = true) (hk : s.page ≤ k) :
    Event.probe (k + 1) ∉ (fetchLoop w b d e fuel s).2 ∧
      (Event.probe k ∈ (fetchLoop w b d e fuel s).2 →
        ∃ pre s', (fetchLoop w b d e fuel s).2 =
            pre ++ [Event.probe k, stopEvent k (w.head k)] ∧
          (fetchLoop w b d e fuel s).1 = .finished s') :=
  loop_probe_stop hstop fuel s hk

/-- C1 witness: with a 404 at page 2, a run started at page 2 never
probes page 3. -/
theorem C1_witness :
    Event.probe 3 ∉ (fetchLoop stopAt2World "u" "output" none 3 (initState 2)).2 :=
  (C1_probe_absence_terminates stopAt2World "u" "output" none 3 (initState 2) 2
    (by decide) (by decide)).1

/-- C2 (code bug): with start page 0 and max_pages 1, the computed
`end_page` is 0, which the `if end_page and page > end_page` test
treats as no ceiling at all: the run probes and processes page 1 — a
second page, beyond the configured ceiling of one — and the ceiling
stop never fires. -/
theorem C2_ceiling_zero_ignored :
    computeEndPage 0 (some 1) = some 0 ∧
      Event.probe 1 ∈
        (fetchLoop ceilingWorld "u" "output" (computeEndPage 0 (some 1)) 3 (initState 0)).2 ∧
      Event.skipMissing 1 ∈
        (fetchLoop ceilingWorld "u" "output" (computeEndPage 0 (some 1)) 3 (initState 0)).2 ∧
      Event.stopLimit ∉
        (fetchLoop ceilingWorld "u" "output" (computeEndPage 0 (some 1)) 3 (initState 0)).2 := by
  decide

/-- C3 counterexample: page 2 renders with no title element, page 3
carries title "T"; the run sets the title to the URL fallback "abc" at
page 2 and never adopts "T", so the fallback is used although a later
page yields a title. -/
theorem C3_counterexample :
    titleWorld.render 3 = .ok ⟨some "T", none⟩ ∧
      (fetchLoop titleWorld "u/abc" "output" none 5 (initState 2)).1.state.novelTitle =
        some "abc" ∧
      ("abc" : String) ≠ "T" := by
  decide

/-- C3 (amended): the title is set exactly once, at the first page that
renders successfully: to that page's title if discoverable, otherwise
immediately to the base-URL fallback; titles on later pages never
overwrite it, and the output path is fixed at the same moment. -/
theorem C3_title_from_first_rendered_page (w : World) (b d : String) (e : Option Nat)
    (fuel start p : Nat) (pg : PageData)
    (hle : start ≤ p) (hf : p - start < fuel)
    (hceil : ∀ q, start ≤ q → q ≤ p → ceilingHit e q = false)
    (hhead : ∀ q, start ≤ q → q ≤ p → probeStops (w.head q) = false)
    (hmiss : ∀ q, start ≤ q → q < p → w.render q = .timeout)
    (hok : w.render p = .ok pg) :
    (fetchLoop w b d e fuel (initState start)).1.state.novelTitle =
        some (discoveredTitle b pg) ∧
      (fetchLoop w b d e fuel (initState start)).1.state.outputFile =
        some (artifactPathFor d (discoveredTitle b pg)) :=
  loop_title_first_render fuel (initState start) p rfl hle hf hceil hhead hmiss hok

/-- C3 witness: page 2 times out, page 3 renders with title "T"; the
run's title is "T". -/
theorem C3_witness :
    (fetchLoop titleWitWorld "u" "output" none 2 (initState 2)).1.state.novelTitle =
      some "T" :=
  (C3_title_from_first_rendered_page titleWitWorld "u" "output" none 2 2 3 ⟨some "T", none⟩
    (by decide) (by decide) (fun _ _ _ => rfl) (fun _ _ _ => rfl)
    (by
      intro q h1 h2
      have hq : q = 2 := by omega
      subst hq
      rfl) rfl).1

/-- C4 counterexample: page 2 renders with no content element and page 3
is a 404.  A page is processed, yet the artifact file is never created
(not before the first page, not at all), and the run ends with an
uncaught FileNotFoundError instead of an empty document. -/
theorem C4_counterexample :
    (fetch_novel emptyRunWorld "u" 2 none "output" 4).1 = .exn ∧
      Event.skipNoContent 2 ∈ (fetch_novel emptyRunWorld "u" 2 none "output" 4).2 ∧
      (fetchLoop emptyRunWorld "u" "output" none 4 (initState 2)).1.state.artifact = none := by
  decide

/-- C4 (amended): the artifact file is created by the first successful
append and not before — it exists at the end of the run exactly when
some append event occurred — and a run with zero appended pages never
yields a packaged document (it produces no document or fails reading
the missing artifact). -/
theorem C4_artifact_created_on_first_append (w : World) (b d : String) (e : Option Nat)
    (fuel start : Nat) :
    ((fetchLoop w b d e fuel (initState start)).1.state.artifact = none ↔
        appendPages (fetchLoop w b d e fuel (initState start)).2 = []) ∧
      (appendPages (fetchLoop w b d e fuel (initState start)).2 = [] →
        ∀ path ttl ps, finalizeRun (fetchLoop w b d e fuel (initState start)).1 ≠
          .wroteEpub path ttl ps) := by
  have hiff := loop_artifact_iff (w := w) (b := b) (d := d) (e := e) fuel (initState start)
  constructor
  · rw [appendPages_eq_nil_iff, hiff]
    simp [initState]
  · intro hnil path ttl ps hcontra
    have hart : (fetchLoop w b d e fuel (initState start)).1.state.artifact = none := by
      rw [hiff]
      exact ⟨rfl, (appendPages_eq_nil_iff _).1 hnil⟩
    cases hres : (fetchLoop w b d e fuel (initState start)).1 with
    | outOfFuel s =>
      rw [hres] at hcontra
      simp [finalizeRun] at hcontra
    | raised s =>
      rw [hres] at hcontra
      simp [finalizeRun] at hcontra
    | finished s =>
      rw [hres] at hart hcontra
      rw [finalizeRun_finished] at hcontra
      cases hof : s.outputFile with
      | none =>
        rw [hof] at hcontra
        simp at hcontra
      | some path' =>
        rw [hof] at hcontra
        have hart' : s.artifact = none := hart
        rw [hart'] at hcontra
        simp at hcontra

/-- C4 witness: a run that 404s immediately appends nothing and writes
no document. -/
theorem C4_witness :
    finalizeRun (fetchLoop stopAt2World "u" "output" none 3 (initState 2)).1 ≠
      Outcome.wroteEpub "p" "t" [] :=
  (C4_artifact_created_on_first_append stopAt2World "u" "output" none 3 2).2
    (by decide) "p" "t" []

/-- C5 counterexample: a page-2 load that raises is not caught — the run
aborts with the exception and page 3 is never probed, so a fetch failure
after a successful probe does terminate the run. -/
theorem C5_counterexample :
    (fetchLoop raiseWorld "u" "output" none 5 (initState 2)).1 = .raised (initState 2) ∧
      Event.probe 3 ∉ (fetchLoop raiseWorld "u" "output" none 5 (initState 2)).2 := by
  decide

/-- C5 (amended): a page whose content wait times out after a successful
probe — the failure mode the script catches — is non-fatal: nothing is
ever appended for that page, the loop continues with the next index, and
append events occur in strictly increasing page order.  (A failure
raised by the page-load call itself instead aborts the run, as the
counterexample shows.) -/
theorem C5_timeout_page_skipped (w : World) (b d : String) (fuel start p : Nat)
    (hto : w.render p = .timeout) :
    (∀ t, Event.append p t ∉ (fetchLoop w b d none fuel (initState start)).2) ∧
      ((fetchLoop w b d none fuel (initState start)).1.isOutOfFuel = false →
        Event.skipMissing p ∈ (fetchLoop w b d none fuel (initState start)).2 →
        Event.probe (p + 1) ∈ (fetchLoop w b d none fuel (initState start)).2) ∧
      (appendPages (fetchLoop w b d none fuel (initState start)).2).Pairwise (· < ·) := by
  refine ⟨?_, ?_, (loop_appendPages fuel (initState start)).1⟩
  · intro t hm
    obtain ⟨⟨pg, cd, hr, _, _⟩, _⟩ := loop_append_mem fuel (initState start) hm
    rw [hto] at hr
    exact GetResult.noConfusion hr
  · intro h1 h2
    exact loop_continue fuel (initState start) h1 (Or.inl h2)

/-- C5 witness: pages 2 and 3 time out and page 4 is a 404; after the
skipped page 2 the run still probes page 3. -/
theorem C5_witness :
    Event.probe 3 ∈ (fetchLoop skipWitWorld "u" "output" none 5 (initState 2)).2 :=
  (C5_timeout_page_skipped skipWitWorld "u" "output" 5 2 2 rfl).2.1 (by decide) (by decide)

/-- C6 counterexample: page 2's content element exists but its only
paragraph strips to empty, so extraction yields an empty paragraph
sequence — yet the page is not skipped: the normalised raw text "x" is
appended. -/
theorem C6_counterexample :
    (⟨[""], "x"⟩ : ContentDiv).pTexts.filter (fun p => p != "") = [] ∧
      emptyParasWorld.render 2 = .ok ⟨some "T", some ⟨[""], "x"⟩⟩ ∧
      Event.append 2 "x" ∈ (fetchLoop emptyParasWorld "u" "output" none 4 (initState 2)).2 := by
  decide

/-- C6 (amended): a page whose content element is absent is skipped —
nothing is appended for it and the loop continues with the next index —
but a page whose content element is present with an empty paragraph
sequence is not skipped: the element's whitespace-normalised raw text is
appended instead. -/
theorem C6_missing_content_skipped (w : World) (b d : String) (fuel start p : Nat)
    (pg : PageData) (hok : w.render p = .ok pg) :
    (pg.contentDiv = none →
      (∀ t, Event.append p t ∉ (fetchLoop w b d none fuel (initState start)).2) ∧
      ((fetchLoop w b d none fuel (initState start)).1.isOutOfFuel = false →
        Event.skipNoContent p ∈ (fetchLoop w b d none fuel (initState start)).2 →
        Event.probe (p + 1) ∈ (fetchLoop w b d none fuel (initState start)).2)) ∧
    (∀ cd, pg.contentDiv = some cd → cd.pTexts.filter (fun q => q != "") = [] →
      ∀ s : LoopState, s.page = p → probeStops (w.head p) = false →
        ∃ s', fetchStep w b d none s =
          .next s' [Event.probe p, Event.append p (normalizeRaw cd.rawText)]) := by
  constructor
  · intro hnone
    constructor
    · intro t hm
      obtain ⟨⟨pg', cd, hr, hcd, _⟩, _⟩ := loop_append_mem fuel (initState start) hm
      rw [hok] at hr
      injection hr with hpg
      rw [← hpg, hnone] at hcd
      exact Option.noConfusion hcd
    · intro h1 h2
      exact loop_continue fuel (initState start) h1 (Or.inr (Or.inl h2))
  · intro cd hcd hfil s hsp hps
    subst hsp
    have hc : ceilingHit none s.page = false := rfl
    rw [← chapterTextOf_empty hfil]
    exact ⟨_, fetchStep_eq_ok_some hc hps hok hcd⟩

/-- C6 witness: page 2 renders without a content element; the run skips
it and still probes page 3. -/
theorem C6_witness :
    Event.probe 3 ∈ (fetchLoop noTitleWitWorld "u" "output" none 5 (initState 2)).2 :=
  ((C6_missing_content_skipped noTitleWitWorld "u" "output" 5 2 2 ⟨none, none⟩ rfl).1
    rfl).2 (by decide) (by decide)

/-- C7: for every ordered paragraph sequence the Chunker (modelled from
the spec, default maximum 4800) partitions it so that (a) no chunk's
joined length exceeds the configured maximum except a chunk holding a
single paragraph that alone exceeds it, and (b) concatenating all
chunks' paragraphs in order reproduces the original sequence exactly. -/
theorem C7_chunker_bound_and_roundtrip (maxLen : Nat) (sep : String) (ps : List String) :
    defaultMaxChunk = 4800 ∧
      (chunkParagraphs maxLen sep ps).flatten = ps ∧
      ∀ c ∈ chunkParagraphs maxLen sep ps,
        (joinSep sep c).length ≤ maxLen ∨ ∃ p, c = [p] ∧ maxLen < p.length := by
  refine ⟨rfl, by simpa using chunkGo_join maxLen sep ps [], ?_⟩
  intro c hc
  exact chunkGo_bound maxLen sep ps [] (Or.inl rfl) c hc

/-- C7 witness: chunking ["aa", "bb", "cc"] at maximum 5 with a blank
separator puts "aa bb" in the first chunk, and that chunk obeys the
bound. -/
theorem C7_witness :
    (joinSep " " ["aa", "bb"]).length ≤ 5 ∨
      ∃ p, ["aa", "bb"] = [p] ∧ 5 < p.length :=
  (C7_chunker_bound_and_roundtrip 5 " " ["aa", "bb", "cc"]).2.2 ["aa", "bb"] (by decide)

/-- C8 counterexample: a title containing ".txt" makes the artifact path
"output/a.txt.txt"; `str.replace` rewrites every occurrence, so the
document is written to "output/a.epub.epub" — not the same base name
with only the extension changed, which would be "output/a.txt.epub". -/
theorem C8_counterexample :
    (fetch_novel dotTxtTitleWorld "u" 2 none "output" 4).1 =
        .wroteEpub "output/a.epub.epub" "a.txt" ["hi"] ∧
      ("output/a.epub.epub" : String) ≠ "output/a.txt.epub" := by
  decide

/-- C8 (amended): the packaged document's path is the artifact path with
every occurrence of ".txt" replaced by ".epub"; when ".txt" occurs in
the artifact path only as its final extension, the document is written
adjacent with the same base name and only the extension changed. -/
theorem C8_adjacent_extension_swap (s : LoopState) (bpath fullText : String)
    (hof : s.outputFile = some (bpath ++ ".txt"))
    (hart : s.artifact = some fullText)
    (hocc : dotTxtOnlyAtEnd bpath) :
    finalizeRun (.finished s) =
      .wroteEpub (bpath ++ ".epub") (s.novelTitle.getD "") (epubParagraphs fullText) := by
  rw [finalizeRun_finished, hof, hart]
  have hlen : bpath.data.length + 1 ≤ (bpath.data ++ ".txt".data).length := by
    rw [List.length_append]
    have h4 : (".txt".data).length = 4 := by decide
    omega
  have hrep := replaceAllAux_tail ".txt".data ".epub".data (by decide) bpath.data
    ((bpath.data ++ ".txt".data).length) hlen hocc
  have hpath : pyReplace (bpath ++ ".txt") ".txt" ".epub" = bpath ++ ".epub" := by
    show (⟨replaceAllAux ".txt".data ".epub".data
        (bpath.data ++ ".txt".data).length (bpath.data ++ ".txt".data)⟩ : String) =
      bpath ++ ".epub"
    rw [hrep]
    rfl
  show Outcome.wroteEpub (pyReplace (bpath ++ ".txt") ".txt" ".epub")
    (s.novelTitle.getD "") (epubParagraphs fullText) = _
  rw [hpath]

/-- C8 witness: with base path "output/a", artifact "hi\n\n" and title
"t", the document is written at "output/a.epub". -/
theorem C8_witness :
    finalizeRun (.finished ⟨5, some "t", some ("output/a" ++ ".txt"), some "hi\n\n"⟩) =
      .wroteEpub ("output/a" ++ ".epub") ((some "t").getD "")
        (epubParagraphs "hi\n\n") :=
  C8_adjacent_extension_swap ⟨5, some "t", some ("output/a" ++ ".txt"), some "hi\n\n"⟩
    "output/a" "hi\n\n" rfl rfl (by unfold dotTxtOnlyAtEnd; decide)

/-- C9: the filesystem-safe transform replaces every character in the
forbidden set by an underscore and leaves every other character, and the
string's length and character order, unchanged. -/
theorem C9_sanitize_pointwise (name : String) :
    (sanitize_filename name).length = name.length ∧
      ∀ i, (sanitize_filename name).data.getD i 'a' =
        (if name.data.getD i 'a' ∈ forbiddenChars then '_'
         else name.data.getD i 'a') := by
  refine ⟨?_, subForbidden_getD name.data⟩
  show (subForbidden name.data).length = name.data.length
  exact subForbidden_length name.data

/-- C10: the fallback title is the substring of the base URL after its
last slash (a slash-free suffix preceded by nothing or by a slash); if
the base URL ends in a slash it is the empty string, and a run whose
first rendered page has no title element then names the artifact
".txt" — an empty base name — inside the output directory. -/
theorem C10_fallback_after_last_slash (base : String) :
    (∃ pre, base.data = pre ++ (fallbackTitle base).data ∧
        '/' ∉ (fallbackTitle base).data ∧ (pre = [] ∨ pre.getLast? = some '/')) ∧
      (base.data.getLast? = some '/' → fallbackTitle base = "") ∧
      (∀ (w : World) (d : String) (e : Option Nat) (fuel start p : Nat) (pg : PageData),
        start ≤ p → p - start < fuel →
        (∀ q, start ≤ q → q ≤ p → ceilingHit e q = false) →
        (∀ q, start ≤ q → q ≤ p → probeStops (w.head q) = false) →
        (∀ q, start ≤ q → q < p → w.render q = .timeout) →
        w.render p = .ok pg → pg.titleTag = none →
        base.data.getLast? = some '/' →
        (fetchLoop w base d e fuel (initState start)).1.state.outputFile =
          some (osPathJoin d ".txt")) := by
  have hchar := splitOnCharL_getLastD '/' base.data
  have hempty : base.data.getLast? = some '/' → fallbackTitle base = "" := by
    intro hend
    obtain ⟨pre, hpre, hnot, _⟩ := hchar
    cases hsfx : (splitOnCharL '/' base.data).getLastD [] with
    | nil =>
      show (⟨(splitOnCharL '/' base.data).getLastD []⟩ : String) = ""
      rw [hsfx]
    | cons x xs =>
      exfalso
      rw [hsfx] at hpre hnot
      rw [hpre] at hend
      rw [List.getLast?_append_of_ne_nil pre (by simp)] at hend
      exact hnot (mem_of_getLast?_eq hend)
  refine ⟨hchar, hempty, ?_⟩
  intro w d e fuel start p pg hle hf hceil hhead hmiss hok htag hend
  have hrun := loop_title_first_render (b := base) (d := d) fuel (initState start) p rfl
    hle hf hceil hhead hmiss hok
  have hdisc : discoveredTitle base pg = "" := by
    unfold discoveredTitle
    rw [htag]
    exact hempty hend
  rw [hrun.2, hdisc]
  rfl

/-- C10 witness: base URL "u/" ends in a slash, so the fallback title is
empty and a run whose first rendered page (page 2) has no title element
names the artifact "output/.txt". -/
theorem C10_witness :
    fallbackTitle "u/" = "" ∧
      (fetchLoop noTitleWitWorld "u/" "output" none 1 (initState 2)).1.state.outputFile =
        some (osPathJoin "output" ".txt") :=
  ⟨(C10_fallback_after_last_slash "u/").2.1 (by decide),
   (C10_fallback_after_last_slash "u/").2.2 noTitleWitWorld "output" none 1 2 2 ⟨none, none⟩
     (by decide) (by decide) (fun _ _ _ => rfl)
     (by
       intro q h1 h2
       have hq : q = 2 := by omega
       subst hq
       rfl)
     (by
       intro q h1 h2
       exact absurd h2 (by omega)) rfl rfl (by decide)⟩

end NovelEpub
